import Mathlib

/-!
Verification of the chunking / embedding / caching / retrieval / aggregation core
of the CV–Job matcher repository (`app/utils/rag.py`, `app/embedding/similarity.py`,
`app/embedding/transformer_embedder.py`, `app/embedding/rag_embedder.py`,
`app/utils/cache.py`, `app/pipeline.py`).

Python text functions are modelled over `List Char`.  NumPy floating-point vectors
are modelled over `ℝ`; the IEEE NaN produced when a cosine denominator is zero is
modelled by `Option ℝ` (`none` for NaN) where ranking behaviour matters.
-/

namespace JobMatcher

open List

/-- The six ASCII whitespace characters matched by the Python class `\s` and removed by
`str.strip()` (the texts of interest are ASCII). -/
def isPySpace (c : Char) : Bool :=
  c = ' ' || c = '\t' || c = '\n' || c = '\r' || c = '\x0b' || c = '\x0c'

/-- Python `str.strip()`: remove leading and trailing whitespace. -/
def pyStrip (s : List Char) : List Char :=
  ((s.dropWhile isPySpace).reverse.dropWhile isPySpace).reverse

/-- Python `section.split("\n")`: split at every newline, keeping empty pieces. -/
def splitOnNl : List Char → List (List Char)
  | [] => [[]]
  | c :: t =>
    if c = '\n' then [] :: splitOnNl t
    else
      match splitOnNl t with
      | [] => [[c]]
      | h :: r => (c :: h) :: r

/-- Case-insensitive test (ASCII lower-casing, as `re.IGNORECASE` does on these
ASCII patterns) that `a` matches the first `a.length` characters of `l`. -/
def ciStarts (a l : List Char) : Bool :=
  a.map Char.toLower == (l.take a.length).map Char.toLower

/-- Index of the last newline of `w`.  The trailing `\s*\n` of the header patterns
backtracks greedily, so the final literal `\n` lands on the last newline inside the
whitespace run that follows the header word. -/
def lastNl (w : List Char) : Option Nat :=
  match w.reverse.findIdx? (fun c => c == '\n') with
  | some r => some (w.length - 1 - r)
  | none => none

/-- Try the alternatives of one header pattern, in the order used by the source, at the
position just after the leading `\n\s*`; on success return the text remaining
after the whole match of `\n\s*(?:…)\s*\n` (the Python `re` engine backtracks to the next
alternative when the trailing `\s*\n` cannot complete). -/
def tryAlts (alts : List (List Char)) (j : List Char) : Option (List Char) :=
  match alts with
  | [] => none
  | a :: more =>
    if ciStarts a j then
      let after := j.drop a.length
      match lastNl (after.takeWhile isPySpace) with
      | some t => some (after.drop (t + 1))
      | none => tryAlts more j
    else tryAlts more j

/-- Match one header pattern `\n\s*(?:alts)\s*\n` at the head of `s`; the leading
`\s*` greedily takes the whole whitespace run (every alternative starts with a
letter, so shorter runs cannot match).  Returns the suffix after the match. -/
def tryMatch (alts : List (List Char)) (s : List Char) : Option (List Char) :=
  match s with
  | [] => none
  | c :: rest => if c = '\n' then tryAlts alts (rest.dropWhile isPySpace) else none

/-- Leftmost-match search of `re.split`: the text before the match and the text
after it. -/
def findSplit (alts : List (List Char)) : List Char → Option (List Char × List Char)
  | [] => none
  | c :: rest =>
    match tryMatch alts (c :: rest) with
    | some r => some ([], r)
    | none =>
      match findSplit alts rest with
      | some (pre, r) => some (c :: pre, r)
      | none => none

/-- Fuelled iteration of `re.split`: cut at each successive leftmost match.  The
fuel supplied by `resplit` strictly exceeds the possible number of matches (each
match consumes at least one character), so it never runs out. -/
def resplitFuel (alts : List (List Char)) : Nat → List Char → List (List Char)
  | 0, s => [s]
  | fuel + 1, s =>
    match findSplit alts s with
    | none => [s]
    | some (pre, r) => pre :: resplitFuel alts fuel r

/-- Python `re.split(pattern, section, flags=re.IGNORECASE)` for one header
pattern of `chunk_cv`. -/
def resplit (alts : List (List Char)) (s : List Char) : List (List Char) :=
  resplitFuel alts (s.length + 1) s

/-- One pass of the section loop of `chunk_cv`:
`new_sections.extend([p.strip() for p in parts if p.strip()])`. -/
def applyPattern (alts : List (List Char)) (sections : List (List Char)) :
    List (List Char) :=
  (sections.map fun sec =>
    ((resplit alts sec).map pyStrip).filter fun p => !p.isEmpty).flatten

/-- Pattern 1, `\n\s*(?:SKILLS?|TECHNICAL SKILLS?|CORE COMPETENCIES)\s*\n`, with
the alternatives expanded in the backtracking order of the engine. -/
def cvPattern1 : List (List Char) :=
  ["SKILLS".toList, "SKILL".toList, "TECHNICAL SKILLS".toList,
   "TECHNICAL SKILL".toList, "CORE COMPETENCIES".toList]

/-- Pattern 2, `\n\s*(?:EXPERIENCE|WORK EXPERIENCE|PROFESSIONAL EXPERIENCE)\s*\n`. -/
def cvPattern2 : List (List Char) :=
  ["EXPERIENCE".toList, "WORK EXPERIENCE".toList, "PROFESSIONAL EXPERIENCE".toList]

/-- Pattern 3, `\n\s*(?:EDUCATION|ACADEMIC BACKGROUND)\s*\n`. -/
def cvPattern3 : List (List Char) :=
  ["EDUCATION".toList, "ACADEMIC BACKGROUND".toList]

/-- Pattern 4, `\n\s*(?:PROJECTS?|KEY PROJECTS?)\s*\n`. -/
def cvPattern4 : List (List Char) :=
  ["PROJECTS".toList, "PROJECT".toList, "KEY PROJECTS".toList, "KEY PROJECT".toList]

/-- Pattern 5, `\n\s*(?:CERTIFICATIONS?|CERTIFICATES?)\s*\n`. -/
def cvPattern5 : List (List Char) :=
  ["CERTIFICATIONS".toList, "CERTIFICATION".toList, "CERTIFICATES".toList,
   "CERTIFICATE".toList]

/-- The `section_patterns` list of `chunk_cv`. -/
def cvPatterns : List (List (List Char)) :=
  [cvPattern1, cvPattern2, cvPattern3, cvPattern4, cvPattern5]

/-- Model of `if current.strip(): chunks.append(current.strip())`. -/
def flushChunk (current : List Char) : List (List Char) :=
  if (pyStrip current).isEmpty then [] else [pyStrip current]

/-- The line-accumulation loop of `chunk_cv` over one oversized section: flush the
buffer whenever appending the next line would exceed the limit. -/
def chunkAccum (maxChars : Nat) (current : List Char) :
    List (List Char) → List (List Char)
  | [] => flushChunk current
  | line :: rest =>
    if current.length + line.length + 1 > maxChars then
      flushChunk current ++ chunkAccum maxChars line rest
    else
      chunkAccum maxChars
        (if current.isEmpty then line else current ++ '\n' :: line) rest

/-- Chunk one section by the character limit (second phase of `chunk_cv`). -/
def processSection (maxChars : Nat) (sec : List Char) : List (List Char) :=
  if sec.length ≤ maxChars then flushChunk sec
  else chunkAccum maxChars [] (splitOnNl sec)

/-- Model of `chunk_cv(text, max_chars)` from `app/utils/rag.py`: split on the five
section-header patterns in order, then chunk each resulting section by the
character limit. -/
def chunk_cv (text : List Char) (maxChars : Nat) : List (List Char) :=
  ((cvPatterns.foldl (fun secs p => applyPattern p secs) [text]).map
    (processSection maxChars)).flatten

/-- Python slice `l[-k:]` for `k ≥ 0`.  Note that `-0 == 0`, so `l[-0:]` is
`l[0:]`, the whole list. -/
def pyNegSlice (k : Nat) (l : List α) : List α :=
  if k = 0 then l else l.drop (l.length - k)

/-- Characters that are not whitespace: the "non-blank content" of a text. -/
def inkOf (s : List Char) : List Char :=
  s.filter fun c => !isPySpace c

/-- A cached RAG entry: the value stored by `RAGCache.set_rag_data` and
`RAGEmbedder.embed_cv` (chunk sequence, embedding sequence, chunk count). -/
structure RagEntry where
  chunks : List (List Char)
  embeddings : List (List Real)
  num_chunks : Nat

/-- State of a `RAGCache` (`app/utils/cache.py`): the in-memory dict and the two
on-disk stores (chunk JSON files and embedding pickle files), keyed by CV hash. -/
structure RAGCacheState where
  memory : List (String × RagEntry)
  diskChunks : List (String × List (List Char))
  diskEmb : List (String × List (List Real))

/-- Model of `RAGCache.get_rag_data(cv_hash)` from `app/utils/cache.py`: return the
in-memory entry if present; otherwise, if both disk files exist, load them and
rebuild the entry; otherwise `None`.  No validation of the stored data (in
particular no chunk/embedding length check) is performed anywhere. -/
def get_rag_data (st : RAGCacheState) (cv_hash : String) : Option RagEntry :=
  match st.memory.lookup cv_hash with
  | some data => some data
  | none =>
    match st.diskChunks.lookup cv_hash, st.diskEmb.lookup cv_hash with
    | some cs, some es => some ⟨cs, es, cs.length⟩
    | _, _ => none

/-- State of a `RAGEmbedder` (`app/embedding/rag_embedder.py`): its in-memory
`_cache` dict, keyed by the SHA-256 content hash produced by `get_cv_hash`. -/
structure RAGEmbedderState where
  cache : List (String × RagEntry)

/-- Model of `RAGEmbedder.get_cached_cv(cv_text)` from
`app/embedding/rag_embedder.py`: `self._cache.get(self.get_cv_hash(cv_text))`.
The opaque SHA-256 `get_cv_hash` is not modelled arithmetically; the model takes
the computed hash as the argument, since the function only uses the text through
its hash.  Whatever dict is stored under the hash is returned as-is — the entry
is not inspected in any way. -/
def get_cached_cv (st : RAGEmbedderState) (cv_hash : String) : Option RagEntry :=
  st.cache.lookup cv_hash

/-- Stages of `run_pipeline_rag` (`app/pipeline.py`) as trace events; the
embedding operations get separate issue (`Start`) and completion (`End`) events. -/
inductive PEvent
  | extractClean
  | cacheCheck
  | embedChunksStart
  | embedChunksEnd
  | embedQueryStart
  | embedQueryEnd
  | retrieveChunks
  | aggregateScore
  | parseDocs
  | scoreResult
  deriving DecidableEq

/-- The order in which `run_pipeline_rag` performs its stages, read off its
straight-line source: extract and clean; cache check; on a miss `embed_cv`
(chunking plus a synchronous embedding call that runs to completion); then
`retrieve_for_jd`, which first embeds the JD synchronously and then retrieves;
then `embedding_score_rag`; then parsing; then scoring.  No task, thread or
executor wraps either embedding call (the `ThreadPoolExecutor` in the source only
runs the two LLM parsing calls, after retrieval). -/
def runPipelineRagTrace (cacheHit : Bool) : List PEvent :=
  [PEvent.extractClean, PEvent.cacheCheck] ++
    (if cacheHit then [] else [PEvent.embedChunksStart, PEvent.embedChunksEnd]) ++
    [PEvent.embedQueryStart, PEvent.embedQueryEnd, PEvent.retrieveChunks,
     PEvent.aggregateScore, PEvent.parseDocs, PEvent.scoreResult]

noncomputable section

/-- Model of `np.dot(a, b)`.  NumPy raises on mismatched lengths; `zip` truncation never
fires because every claim compares equal-dimension vectors. -/
def dotProd (a b : List Real) : Real :=
  ((a.zip b).map fun p => p.1 * p.2).sum

/-- Model of `np.linalg.norm(a)`: the Euclidean norm. -/
def norm2 (a : List Real) : Real :=
  Real.sqrt (dotProd a a)

/-- Model of `cosine_similarity(a, b)` = `np.dot(a, b) / (np.linalg.norm(a) *
np.linalg.norm(b))`.  The identical formula appears in `app/utils/rag.py`
(`cosine_similarity`), `app/embedding/similarity.py` (`cosine`) and
`app/embedding/transformer_embedder.py` (`cosine_similarity`).  When the
denominator is zero the source computes `0.0/0.0` = IEEE NaN (a zero norm forces
a zero dot product); real division by zero yields `0` here, so value-level
theorems carry nonzero-norm hypotheses and `cosineSimOpt` models the NaN case
where ranking behaviour matters. -/
def cosineSim (a b : List Real) : Real :=
  dotProd a b / (norm2 a * norm2 b)

/-- Model of `cosine_similarity(a, b)` with NaN made explicit: `none` exactly when the
denominator is zero. -/
def cosineSimOpt (a b : List Real) : Option Real :=
  if norm2 a * norm2 b = 0 then none else some (cosineSim a b)

/-- The key order `np.argsort` sorts floats by: NaN (`none`) sorts after every
number (NumPy places NaN last in ascending order). -/
def keyLE : Option Real → Option Real → Prop
  | _, none => True
  | none, some _ => False
  | some x, some y => x ≤ y

instance (a b : Option Real) : Decidable (keyLE a b) :=
  match a, b with
  | none, none => isTrue trivial
  | some _, none => isTrue trivial
  | none, some _ => isFalse id
  | some x, some y => inferInstanceAs (Decidable (x ≤ y))

/-- Index comparison used by the model of `np.argsort(scores)`: compare the
scores at the two indices (`getD` is only a totality device; indices come from
`range scores.length`). -/
def scoreLE (scores : List (Option Real)) (i j : Nat) : Prop :=
  keyLE (scores.getD i none) (scores.getD j none)

instance (scores : List (Option Real)) : DecidableRel (scoreLE scores) :=
  fun i j => inferInstanceAs (Decidable (keyLE _ _))

instance (scores : List (Option Real)) : IsTotal Nat (scoreLE scores) where
  total i j := by
    unfold scoreLE
    rcases scores.getD i none with _ | x <;> rcases scores.getD j none with _ | y
    · exact Or.inl trivial
    · exact Or.inr trivial
    · exact Or.inl trivial
    · exact (le_total x y).imp id id

instance (scores : List (Option Real)) : IsTrans Nat (scoreLE scores) where
  trans i j k := by
    unfold scoreLE
    rcases scores.getD i none with _ | x <;> rcases scores.getD j none with _ | y <;>
      rcases scores.getD k none with _ | z <;> intro h1 h2 <;>
      first
        | exact trivial
        | exact h1.elim
        | exact h2.elim
        | exact le_trans h1 h2

/-- Model of `np.argsort(scores)`: indices of `scores` in ascending score order
with NaN last (NumPy guarantees NaN sorts to the end for every sort kind).  Ties
are modelled in index order, i.e. as a stable sort.  The default NumPy
`kind='quicksort'` (introsort) guarantees this only for arrays of at most 16
elements, which it hands whole to its stable insertion sort (the
`SMALL_QUICKSORT` threshold); on larger tied inputs the partition step may
reorder equal elements, so NumPy fixes no tie order there.  Accordingly, the
only theorem that relies on the tie order of this model carries an explicit
length bound of 16; every other theorem uses only the sortedness, permutation,
singleton and NaN-last facts, which hold for every sort kind. -/
def argsortIdx (scores : List (Option Real)) : List Nat :=
  List.insertionSort (scoreLE scores) (List.range scores.length)

/-- The per-chunk score list built by `retrieve_relevant_chunks`. -/
def retScores (chunk_embeddings : List (List Real)) (query : List Real) :
    List (Option Real) :=
  chunk_embeddings.map fun e => cosineSimOpt e query

/-- Model of `top_k = min(top_k, len(chunks))` followed by
`top_indices = np.argsort(scores)[-top_k:][::-1]`. -/
def retrieveTopIdx (chunksLen : Nat) (chunk_embeddings : List (List Real))
    (query : List Real) (top_k : Nat) : List Nat :=
  (pyNegSlice (min top_k chunksLen)
    (argsortIdx (retScores chunk_embeddings query))).reverse

/-- Model of `retrieve_relevant_chunks(chunks, chunk_embeddings, query_embedding, top_k)`
from `app/utils/rag.py`: score every chunk, argsort, take the `[-top_k:]` slice,
reverse, and read off chunks and scores. -/
def retrieve_relevant_chunks (chunks : List (List Char))
    (chunk_embeddings : List (List Real)) (query_embedding : List Real)
    (top_k : Nat) : List (List Char) × List (Option Real) :=
  let scores := retScores chunk_embeddings query_embedding
  let idx := retrieveTopIdx chunks.length chunk_embeddings query_embedding top_k
  (idx.map fun i => chunks.getD i [], idx.map fun i => scores.getD i none)

/-- Round half to even, as the Python builtin `round` does, on the reals: when the fractional part
is one half, `2 * round (x / 2)` lands on the even neighbour; otherwise this is
ordinary rounding. -/
def roundHE (x : Real) : Int :=
  if Int.fract x = 1 / 2 then 2 * round (x / 2) else round x

/-- Python `round(x, 1)`: round to one decimal place, halves to even. -/
def pyRound1 (x : Real) : Real :=
  (roundHE (x * 10) : Real) / 10

/-- Python `max(l)` on floats.  Every call site guards the empty list (on which
the Python builtin `max` raises); the value `0` there is never observed. -/
def pyMax : List Real → Real
  | [] => 0
  | x :: xs => xs.foldl max x

instance : DecidableRel (fun a b : Real => b ≤ a) :=
  fun a b => inferInstanceAs (Decidable (b ≤ a))

/-- Python `sorted(similarities, reverse=True)`: descending sort. -/
def pySortDesc (l : List Real) : List Real :=
  List.insertionSort (fun a b : Real => b ≤ a) l

/-- The `weighted` pooling arm: `top_3 = sorted(similarities, reverse=True)[:3]`;
`weights = [0.5, 0.3, 0.2]`; `sum(s * w for s, w in zip(top_3, weights[:len(top_3)]))`. -/
def weightedPool (sims : List Real) : Real :=
  let top3 := (pySortDesc sims).take 3
  let weights : List Real := [0.5, 0.3, 0.2]
  ((top3.zip (weights.take top3.length)).map fun p => p.1 * p.2).sum

namespace Similarity

/-- Model of `embedding_score_rag(cv_embeddings, jd_embedding, pooling)` from
`app/embedding/similarity.py`: `0.0` on an empty embedding list, otherwise pool
the per-chunk cosine similarities (`max`, `mean`, `weighted`, default `max`) and
return `round(score * 100, 1)`. -/
def embedding_score_rag (cv_embeddings : List (List Real))
    (jd_embedding : List Real) (pooling : String) : Real :=
  if cv_embeddings.isEmpty then 0 else
  pyRound1
    ((let similarities := cv_embeddings.map fun e => cosineSim e jd_embedding
      if pooling = "max" then pyMax similarities
      else if pooling = "mean" then similarities.sum / similarities.length
      else if pooling = "weighted" then weightedPool similarities
      else pyMax similarities) * 100)

end Similarity

namespace Transformer

/-- Model of `embedding_score_rag(cv_embeddings, jd_embedding, pooling)` from
`app/embedding/transformer_embedder.py`; its `float(...)` coercions are identity
on reals, leaving the same computation as the `similarity.py` version. -/
def embedding_score_rag (cv_embeddings : List (List Real))
    (jd_embedding : List Real) (pooling : String) : Real :=
  if cv_embeddings.isEmpty then 0 else
  pyRound1
    ((let similarities := cv_embeddings.map fun e => cosineSim e jd_embedding
      if pooling = "max" then pyMax similarities
      else if pooling = "mean" then similarities.sum / similarities.length
      else if pooling = "weighted" then weightedPool similarities
      else pyMax similarities) * 100)

end Transformer

namespace RAGEmbedder

/-- Model of `RAGEmbedder.get_similarity_score(cv_embeddings, jd_embedding)` from
`app/embedding/rag_embedder.py`: max pooling via
`max(similarities) if similarities else 0.0`, then `round(max_similarity * 100, 1)`. -/
def get_similarity_score (cv_embeddings : List (List Real))
    (jd_embedding : List Real) : Real :=
  let similarities := cv_embeddings.map fun e => cosineSim e jd_embedding
  pyRound1 ((if similarities.isEmpty then 0 else pyMax similarities) * 100)

end RAGEmbedder

/-- Modelled from the spec wording (§4.4, policy `weighted`): "take the top 3
similarities sorted descending, apply fixed weights `[0.5, 0.3, 0.2]` aligned
with rank (if fewer than 3 chunks exist, use only the matching prefix of the
weight list and do not renormalize), sum, scale ×100", rounded to one decimal
place. -/
def specWeightedScore (cv_embeddings : List (List Real))
    (jd_embedding : List Real) : Real :=
  let sims := cv_embeddings.map fun e => cosineSim e jd_embedding
  let top := (pySortDesc sims).take 3
  pyRound1 (100 * ((top.zip [(0.5 : Real), 0.3, 0.2]).map fun p => p.1 * p.2).sum)

end

/-! ### Lemmas about the Python string model -/

theorem inkOf_append (a b : List Char) : inkOf (a ++ b) = inkOf a ++ inkOf b := by
  simp [inkOf]

theorem inkOf_cons (c : Char) (t : List Char) :
    inkOf (c :: t) = if isPySpace c then inkOf t else c :: inkOf t := by
  by_cases h : isPySpace c <;> simp [inkOf, List.filter_cons, h]

theorem inkOf_dropWhile (s : List Char) :
    inkOf (s.dropWhile isPySpace) = inkOf s := by
  induction s with
  | nil => rfl
  | cons c t ih =>
    by_cases h : isPySpace c
    · rw [List.dropWhile_cons_of_pos h, ih, inkOf_cons, if_pos h]
    · rw [List.dropWhile_cons_of_neg h]

theorem inkOf_reverse (s : List Char) : inkOf s.reverse = (inkOf s).reverse := by
  simp [inkOf]

theorem inkOf_pyStrip (s : List Char) : inkOf (pyStrip s) = inkOf s := by
  unfold pyStrip
  rw [inkOf_reverse, inkOf_dropWhile, inkOf_reverse, List.reverse_reverse,
    inkOf_dropWhile]

theorem pyStrip_sublist (s : List Char) : pyStrip s <+ s := by
  unfold pyStrip
  have h1 : ((s.dropWhile isPySpace).reverse.dropWhile isPySpace).reverse <+
      (s.dropWhile isPySpace).reverse.reverse :=
    (List.dropWhile_sublist _).reverse
  rw [List.reverse_reverse] at h1
  exact h1.trans (List.dropWhile_sublist _)

theorem pyStrip_length_le (s : List Char) : (pyStrip s).length ≤ s.length :=
  (pyStrip_sublist s).length_le

theorem mem_pyStrip {c : Char} {s : List Char} (h : c ∈ pyStrip s) : c ∈ s :=
  (pyStrip_sublist s).subset h

theorem inkOf_of_pyStrip_nil {s : List Char} (h : pyStrip s = []) : inkOf s = [] := by
  rw [← inkOf_pyStrip s, h]; rfl

theorem splitOnNl_ne_nil (s : List Char) : splitOnNl s ≠ [] := by
  cases s with
  | nil => simp [splitOnNl]
  | cons c t =>
    rw [splitOnNl]
    split
    · simp
    · cases h : splitOnNl t <;> simp

theorem mem_splitOnNl_no_nl {s l : List Char} (h : l ∈ splitOnNl s) : '\n' ∉ l := by
  induction s generalizing l with
  | nil =>
    simp only [splitOnNl, List.mem_singleton] at h
    simp [h]
  | cons c t ih =>
    rw [splitOnNl] at h
    split at h
    · rcases List.mem_cons.mp h with h | h
      · simp [h]
      · exact ih h
    · rename_i hc
      rcases hh : splitOnNl t with _ | ⟨hd, tl⟩
      · exact absurd hh (splitOnNl_ne_nil t)
      · rw [hh] at h
        rcases List.mem_cons.mp h with h | h
        · subst h
          intro hmem
          rcases List.mem_cons.mp hmem with h | h
          · exact hc h.symm
          · exact ih (l := hd) (hh ▸ List.mem_cons_self hd tl) h
        · exact ih (hh ▸ List.mem_cons_of_mem hd h)

theorem inkOf_flatten_splitOnNl (s : List Char) :
    inkOf (splitOnNl s).flatten = inkOf s := by
  induction s with
  | nil => rfl
  | cons c t ih =>
    rw [splitOnNl]
    split
    · rename_i hc
      subst hc
      rw [List.flatten_cons, List.nil_append, ih, inkOf_cons]
      simp [isPySpace]
    · rename_i hc
      rcases hh : splitOnNl t with _ | ⟨hd, tl⟩
      · exact absurd hh (splitOnNl_ne_nil t)
      · have : inkOf ((c :: hd) :: tl).flatten = inkOf (c :: t) := by
          rw [List.flatten_cons, List.cons_append, inkOf_cons, inkOf_cons]
          have ht : inkOf (hd ++ tl.flatten) = inkOf t := by
            have := ih
            rw [hh, List.flatten_cons] at this
            exact this
          split <;> rw [ht]
        exact this

/-! ### Lemmas about the chunking loop -/

theorem mem_flushChunk {c cur : List Char} (h : c ∈ flushChunk cur) :
    c = pyStrip cur := by
  unfold flushChunk at h
  split at h
  · simp at h
  · simpa using h

theorem inkOf_flatten_flushChunk (cur : List Char) :
    inkOf (flushChunk cur).flatten = inkOf cur := by
  unfold flushChunk
  split
  · rename_i h
    rw [List.isEmpty_iff] at h
    rw [inkOf_of_pyStrip_nil h]
    rfl
  · simp [inkOf_pyStrip]

theorem chunkAccum_bound (L : Nat) :
    ∀ (lines : List (List Char)) (cur : List Char),
      (cur.length ≤ L ∨ '\n' ∉ cur) → (∀ l ∈ lines, '\n' ∉ l) →
      ∀ c ∈ chunkAccum L cur lines, c.length ≤ L ∨ '\n' ∉ c := by
  intro lines
  induction lines with
  | nil =>
    intro cur hcur _ c hc
    rw [chunkAccum] at hc
    rcases mem_flushChunk hc with rfl
    rcases hcur with h | h
    · exact Or.inl ((pyStrip_length_le cur).trans h)
    · exact Or.inr fun hm => h (mem_pyStrip hm)
  | cons line rest ih =>
    intro cur hcur hlines c hc
    rw [chunkAccum] at hc
    split at hc
    · rcases List.mem_append.mp hc with h | h
      · rcases mem_flushChunk h with rfl
        rcases hcur with h' | h'
        · exact Or.inl ((pyStrip_length_le cur).trans h')
        · exact Or.inr fun hm => h' (mem_pyStrip hm)
      · exact ih line (Or.inr (hlines line (List.mem_cons_self _ _)))
          (fun l hl => hlines l (List.mem_cons_of_mem _ hl)) c h
    · rename_i hle
      refine ih _ ?_ (fun l hl => hlines l (List.mem_cons_of_mem _ hl)) c hc
      split
      · exact Or.inr (hlines line (List.mem_cons_self _ _))
      · left
        have : cur.length + line.length + 1 ≤ L := by omega
        simp only [List.length_append, List.length_cons]
        omega

theorem chunkAccum_ink (L : Nat) :
    ∀ (lines : List (List Char)) (cur : List Char),
      inkOf (chunkAccum L cur lines).flatten = inkOf cur ++ inkOf lines.flatten := by
  intro lines
  induction lines with
  | nil =>
    intro cur
    rw [chunkAccum, inkOf_flatten_flushChunk]
    simp [inkOf]
  | cons line rest ih =>
    intro cur
    rw [chunkAccum]
    split
    · rw [List.flatten_append, inkOf_append, inkOf_flatten_flushChunk, ih,
        List.flatten_cons, inkOf_append]
    · rw [ih]
      split
      · rename_i hemp
        rw [List.isEmpty_iff] at hemp
        subst hemp
        simp [List.flatten_cons, inkOf_append, inkOf]
      · rw [List.flatten_cons, inkOf_append, inkOf_append, inkOf_cons]
        simp [isPySpace]

theorem processSection_bound (L : Nat) (sec : List Char) :
    ∀ c ∈ processSection L sec, c.length ≤ L ∨ '\n' ∉ c := by
  intro c hc
  rw [processSection] at hc
  split at hc
  · rename_i hle
    rcases mem_flushChunk hc with rfl
    exact Or.inl ((pyStrip_length_le sec).trans hle)
  · exact chunkAccum_bound L (splitOnNl sec) [] (Or.inl (Nat.zero_le L))
      (fun l hl => mem_splitOnNl_no_nl hl) c hc

theorem processSection_ink (L : Nat) (sec : List Char) :
    inkOf (processSection L sec).flatten = inkOf sec := by
  rw [processSection]
  split
  · exact inkOf_flatten_flushChunk sec
  · rw [chunkAccum_ink, inkOf_flatten_splitOnNl]
    rfl

/-! ### Lemmas about the `re.split` model -/

theorem tryAlts_suffix {alts : List (List Char)} {j r : List Char}
    (h : tryAlts alts j = some r) : r <:+ j := by
  induction alts with
  | nil => simp [tryAlts] at h
  | cons a more ih =>
    rw [tryAlts] at h
    split at h
    · dsimp only at h
      split at h
      · rename_i t _
        injection h with h
        subst h
        exact ((List.drop_suffix _ _).trans (List.drop_suffix _ _))
      · exact ih h
    · exact ih h

theorem tryMatch_suffix {alts : List (List Char)} {s r : List Char}
    (h : tryMatch alts s = some r) : ∃ c rest, s = c :: rest ∧ r <:+ rest := by
  cases s with
  | nil => simp [tryMatch] at h
  | cons c rest =>
    rw [tryMatch] at h
    split at h
    · exact ⟨c, rest, rfl, (tryAlts_suffix h).trans (List.dropWhile_suffix _)⟩
    · simp at h

theorem findSplit_decomp {alts : List (List Char)} {s pre r : List Char}
    (h : findSplit alts s = some (pre, r)) : ∃ mid, s = pre ++ mid ++ r := by
  induction s generalizing pre with
  | nil => simp [findSplit] at h
  | cons c rest ih =>
    rw [findSplit] at h
    split at h
    · rename_i r' hm
      injection h with h
      rw [Prod.mk.injEq] at h
      obtain ⟨h1, h2⟩ := h
      subst h1
      subst h2
      obtain ⟨c', rest', hcr, hsuf⟩ := tryMatch_suffix hm
      obtain ⟨mid', hmid⟩ := hsuf
      injection hcr with hc hr
      subst hc
      subst hr
      exact ⟨c :: mid', by rw [List.nil_append, List.cons_append, hmid]⟩
    · split at h
      · rename_i pre' r' hrec
        injection h with h
        rw [Prod.mk.injEq] at h
        obtain ⟨h1, h2⟩ := h
        subst h1
        subst h2
        obtain ⟨mid, hmid⟩ := ih hrec
        exact ⟨mid, by rw [List.cons_append, List.cons_append, ← hmid]⟩
      · exact absurd h (by simp)

theorem resplitFuel_ink (alts : List (List Char)) :
    ∀ (fuel : Nat) (s : List Char),
      inkOf (resplitFuel alts fuel s).flatten <+ inkOf s := by
  intro fuel
  induction fuel with
  | zero =>
    intro s
    simp [resplitFuel]
  | succ f ih =>
    intro s
    rw [resplitFuel]
    split
    · simp
    · rename_i pre r hfs
      obtain ⟨mid, hmid⟩ := findSplit_decomp hfs
      rw [List.flatten_cons, inkOf_append, hmid, inkOf_append, inkOf_append,
        List.append_assoc]
      exact ((ih r).trans (List.sublist_append_right _ _)).append_left (inkOf pre)

theorem resplit_ink (alts : List (List Char)) (s : List Char) :
    inkOf (resplit alts s).flatten <+ inkOf s :=
  resplitFuel_ink alts _ s

theorem stripFilter_ink (parts : List (List Char)) :
    inkOf ((parts.map pyStrip).filter (fun p => !p.isEmpty)).flatten =
      inkOf parts.flatten := by
  induction parts with
  | nil => rfl
  | cons p rest ih =>
    rw [List.map_cons, List.filter_cons]
    by_cases hp : (pyStrip p).isEmpty
    · have h0 : inkOf p = [] := inkOf_of_pyStrip_nil (List.isEmpty_iff.mp hp)
      rw [if_neg (by simp [hp]), List.flatten_cons, inkOf_append, h0,
        List.nil_append]
      exact ih
    · rw [if_pos (by simp [hp]), List.flatten_cons, List.flatten_cons,
        inkOf_append, inkOf_append, inkOf_pyStrip, ih]

theorem applyPattern_ink (p : List (List Char)) (secs : List (List Char)) :
    inkOf (applyPattern p secs).flatten <+ inkOf secs.flatten := by
  induction secs with
  | nil => simp [applyPattern]
  | cons sec rest ih =>
    rw [applyPattern, List.map_cons, List.flatten_cons, List.flatten_append,
      inkOf_append, List.flatten_cons, inkOf_append]
    refine Sublist.append ?_ ih
    rw [stripFilter_ink]
    exact resplit_ink p sec

theorem foldl_applyPattern_ink (pats : List (List (List Char))) :
    ∀ secs : List (List Char),
      inkOf ((pats.foldl (fun s p => applyPattern p s) secs).flatten) <+
        inkOf secs.flatten := by
  induction pats with
  | nil => intro secs; simp
  | cons p rest ih =>
    intro secs
    rw [List.foldl_cons]
    exact (ih (applyPattern p secs)).trans (applyPattern_ink p secs)

/-! ### C2 : the segmenter -/

/-- C2 (amended theorem).  For every text and chunk limit: (a) every chunk
returned by `chunk_cv` either has length at most the limit or is a single
non-splittable line — it contains no newline and is emitted whole rather than
truncated; and (b) the non-blank content of the concatenated chunks is a
subsequence, in order, of the non-blank content of the text.  Full equality of the
non-blank content fails because `re.split` deletes the matched section-header
lines (see the counterexample `chunk_cv_drops_header`). -/
theorem chunk_cv_bound_and_content (text : List Char) (L : Nat) :
    (∀ c ∈ chunk_cv text L, c.length ≤ L ∨ '\n' ∉ c) ∧
    inkOf (chunk_cv text L).flatten <+ inkOf text := by
  constructor
  · intro c hc
    rw [chunk_cv, List.mem_flatten] at hc
    obtain ⟨cs, hcs, hc⟩ := hc
    rw [List.mem_map] at hcs
    obtain ⟨sec, _, rfl⟩ := hcs
    exact processSection_bound L sec c hc
  · rw [chunk_cv]
    have hsec : ∀ secs : List (List Char),
        inkOf ((secs.map (processSection L)).flatten).flatten =
          inkOf secs.flatten := by
      intro secs
      induction secs with
      | nil => rfl
      | cons sec rest ih =>
        rw [List.map_cons, List.flatten_cons, List.flatten_append, inkOf_append,
          processSection_ink, List.flatten_cons, inkOf_append, ih]
    rw [hsec]
    simpa using foldl_applyPattern_ink cvPatterns [text]

/-- C2 (counterexample).  On the text `"Intro\nSKILLS\nPython"` with limit 500
the matched header line `SKILLS` is deleted by the section split
(`re.split` with a non-capturing group removes the matched separator), so
concatenating the returned chunks does not reproduce the full non-blank
content: the chunks are `["Intro", "Python"]`. -/
theorem chunk_cv_drops_header :
    chunk_cv ("Intro\nSKILLS\nPython".toList) 500 =
        ["Intro".toList, "Python".toList] ∧
      inkOf (chunk_cv ("Intro\nSKILLS\nPython".toList) 500).flatten ≠
        inkOf ("Intro\nSKILLS\nPython".toList) := by
  constructor
  · decide
  · decide

/-! ### Lemmas about the retrieval model -/

theorem keyLE_refl (a : Option Real) : keyLE a a := by
  cases a
  · trivial
  · exact le_refl _

theorem argsortIdx_perm (scores : List (Option Real)) :
    argsortIdx scores ~ List.range scores.length :=
  List.perm_insertionSort _ _

theorem argsortIdx_nodup (scores : List (Option Real)) :
    (argsortIdx scores).Nodup :=
  (argsortIdx_perm scores).nodup_iff.mpr (List.nodup_range _)

theorem argsortIdx_sorted (scores : List (Option Real)) :
    List.Sorted (scoreLE scores) (argsortIdx scores) :=
  List.sorted_insertionSort _ _

theorem mem_argsortIdx {scores : List (Option Real)} {i : Nat} :
    i ∈ argsortIdx scores ↔ i < scores.length := by
  rw [argsortIdx, List.mem_insertionSort, List.mem_range]

theorem pair_sublist_range {i j n : Nat} (hij : i < j) (hj : j < n) :
    [i, j] <+ List.range n := by
  induction n with
  | zero => omega
  | succ m ih =>
    rw [List.range_succ]
    rcases Nat.lt_or_ge j m with h | h
    · exact (ih h).trans (List.sublist_append_left _ _)
    · have hjm : j = m := by omega
      subst hjm
      have hi : [i] <+ List.range j :=
        List.singleton_sublist.mpr (List.mem_range.mpr hij)
      simpa using hi.append (Sublist.refl [j])

theorem pair_sublist_drop {α : Type _} :
    ∀ (m : Nat) (l : List α) (a b : α), l.Nodup → [a, b] <+ l → a ∈ l.drop m →
      [a, b] <+ l.drop m := by
  intro m
  induction m with
  | zero =>
    intro l a b _ h _
    simpa using h
  | succ k ih =>
    intro l a b hnd h ha
    cases l with
    | nil => simp at ha
    | cons x t =>
      rw [List.drop_succ_cons] at ha ⊢
      cases h with
      | cons _ h' => exact ih t a b (List.nodup_cons.mp hnd).2 h' ha
      | cons₂ _ h' =>
        exact absurd ((List.drop_sublist _ _).subset ha) (List.nodup_cons.mp hnd).1

theorem pair_sublist_of_mem {α : Type _} :
    ∀ (l : List α) (a b : α), l.Nodup → a ∈ l → b ∈ l → a ≠ b →
      [a, b] <+ l ∨ [b, a] <+ l := by
  intro l
  induction l with
  | nil =>
    intro a b _ ha
    simp at ha
  | cons x t ih =>
    intro a b hnd ha hb hne
    rcases List.mem_cons.mp ha with rfl | ha'
    · have hbt : b ∈ t := by
        rcases List.mem_cons.mp hb with h | h
        · exact absurd h.symm hne
        · exact h
      exact Or.inl ((List.singleton_sublist.mpr hbt).cons₂ a)
    · rcases List.mem_cons.mp hb with rfl | hb'
      · exact Or.inr ((List.singleton_sublist.mpr ha').cons₂ b)
      · rcases ih a b (List.nodup_cons.mp hnd).2 ha' hb' hne with h | h
        · exact Or.inl (h.cons x)
        · exact Or.inr (h.cons x)

theorem pair_sublist_pyNegSlice {l : List Nat} {a b : Nat} {k : Nat}
    (hnd : l.Nodup) (h : [a, b] <+ l) (ha : a ∈ pyNegSlice k l) :
    [a, b] <+ pyNegSlice k l := by
  by_cases hk : k = 0
  · simpa [pyNegSlice, hk] using h
  · rw [pyNegSlice, if_neg hk] at ha ⊢
    exact pair_sublist_drop _ l a b hnd h ha

theorem pair_sublist_reverse {α : Type _} {l : List α} {a b : α}
    (h : [a, b] <+ l) : [b, a] <+ l.reverse := by
  simpa using h.reverse

theorem retScores_length (E : List (List Real)) (q : List Real) :
    (retScores E q).length = E.length := by
  simp [retScores]

/-! ### C4 : tie-breaking in retrieval -/

/-- C4 (amended theorem).  For chunk lists of at most 16 chunks — the regime in
which the default NumPy introsort runs as a single stable insertion sort (its
`SMALL_QUICKSORT` threshold), so the source fixes the tie order — when two
chunks `i < j` have exactly equal similarity to the query, the tie is broken by
original chunk order REVERSED: whenever the lower index `i` is selected, the
higher index `j` is selected as well and is placed ahead of `i` in the returned
ranking.  (The ascending sort is stable, so ties come out in index order, and
the `[::-1]` reversal then puts the higher index first; the `[-top_k:]` cut
likewise keeps the higher index in preference to the lower.)  Above 16 elements
NumPy guarantees no tie order at all, so no deterministic tie-break claim holds
there. -/
theorem retrieve_tie_prefers_higher_index
    (chunks : List (List Char)) (E : List (List Real)) (q : List Real)
    (k i j : Nat) (hsmall : E.length ≤ 16) (hij : i < j) (hj : j < E.length)
    (htie : (retScores E q).getD i none = (retScores E q).getD j none)
    (hsel : i ∈ retrieveTopIdx chunks.length E q k) :
    j ∈ retrieveTopIdx chunks.length E q k ∧
      [j, i] <+ retrieveTopIdx chunks.length E q k := by
  have hlen : (retScores E q).length = E.length := retScores_length E q
  have hr : scoreLE (retScores E q) i j := by
    rw [scoreLE, htie]
    exact keyLE_refl _
  have hpair : [i, j] <+ argsortIdx (retScores E q) :=
    List.pair_sublist_insertionSort hr (pair_sublist_range hij (hlen ▸ hj))
  have hnd : (argsortIdx (retScores E q)).Nodup := argsortIdx_nodup _
  rw [retrieveTopIdx] at hsel ⊢
  rw [List.mem_reverse] at hsel
  have hslice := pair_sublist_pyNegSlice hnd hpair hsel
  refine ⟨?_, pair_sublist_reverse hslice⟩
  rw [List.mem_reverse]
  exact hslice.subset (by simp)

/-! ### Concrete similarity evaluations -/

theorem dotProd_single (x y : Real) : dotProd [x] [y] = x * y := by
  simp [dotProd]

theorem norm2_single {x : Real} (hx : 0 ≤ x) : norm2 [x] = x := by
  rw [norm2, dotProd_single, Real.sqrt_mul_self hx]

theorem cosineSimOpt_one_one : cosineSimOpt [(1 : Real)] [1] = some 1 := by
  rw [cosineSimOpt, norm2_single zero_le_one, if_neg (by norm_num), cosineSim,
    dotProd_single, norm2_single zero_le_one]
  norm_num

theorem cosineSimOpt_zero_left (b : List Real) :
    cosineSimOpt [(0 : Real)] b = none := by
  rw [cosineSimOpt, if_pos]
  rw [norm2_single le_rfl, zero_mul]

theorem argsortIdx_two_tie (t : Option Real) : argsortIdx [t, t] = [0, 1] := by
  have hr : scoreLE [t, t] 0 1 := by
    show keyLE (([t, t] : List (Option Real)).getD 0 none)
      (([t, t] : List (Option Real)).getD 1 none)
    exact keyLE_refl t
  show List.orderedInsert (scoreLE [t, t]) 0
      (List.orderedInsert (scoreLE [t, t]) 1
        (List.insertionSort (scoreLE [t, t]) [])) = [0, 1]
  rw [List.insertionSort, List.orderedInsert_nil, List.orderedInsert, if_pos hr]

theorem argsortIdx_nan_some (v : Real) :
    argsortIdx [none, some v] = [1, 0] := by
  have hr : ¬ scoreLE [none, some v] 0 1 := fun h => h
  show List.orderedInsert (scoreLE [none, some v]) 0
      (List.orderedInsert (scoreLE [none, some v]) 1
        (List.insertionSort (scoreLE [none, some v]) [])) = [1, 0]
  rw [List.insertionSort, List.orderedInsert_nil, List.orderedInsert, if_neg hr,
    List.orderedInsert_nil]

theorem retScores_tie_pair :
    retScores [[(1 : Real)], [1]] [1] = [cosineSimOpt [1] [1], cosineSimOpt [1] [1]] := by
  rfl

theorem retrieveTopIdx_tie_two (k : Nat) (hk : k = 1 ∨ k = 2) :
    retrieveTopIdx 2 [[(1 : Real)], [1]] [1] k =
      if k = 1 then [1] else [1, 0] := by
  have hsc : argsortIdx (retScores [[(1 : Real)], [1]] [1]) = [0, 1] := by
    rw [retScores_tie_pair]
    exact argsortIdx_two_tie _
  rcases hk with rfl | rfl
  · rw [retrieveTopIdx, hsc]
    rfl
  · rw [retrieveTopIdx, hsc]
    rfl

/-- C4 (counterexample).  Two chunks with identical embeddings (hence exactly
equal cosine similarity), `top_k = 1`: `retrieve_relevant_chunks` selects chunk
index 1 — the HIGHER index — and returns chunk `"b"`, not `"a"` as the claimed
lower-index tie-break would require. -/
theorem retrieve_tie_selects_higher_index :
    retrieveTopIdx 2 [[(1 : Real)], [1]] [1] 1 = [1] ∧
      (retrieve_relevant_chunks ["a".toList, "b".toList]
        [[(1 : Real)], [1]] [1] 1).1 = ["b".toList] := by
  have h := retrieveTopIdx_tie_two 1 (Or.inl rfl)
  rw [if_pos rfl] at h
  refine ⟨h, ?_⟩
  show (retrieveTopIdx 2 [[(1 : Real)], [1]] [1] 1).map _ = _
  rw [h]
  rfl

/-- C4 (witness): the amended tie-break theorem applied at the concrete tied
input (two identical embeddings, `top_k = 2`), with every hypothesis discharged
by evaluation. -/
theorem retrieve_tie_prefers_higher_index_witness :
    (([[(1 : Real)], [1]] : List (List Real)).length ≤ 16 ∧
      (0 : Nat) < 1 ∧ 1 < ([[(1 : Real)], [1]] : List (List Real)).length ∧
      (retScores [[(1 : Real)], [1]] [1]).getD 0 none =
        (retScores [[(1 : Real)], [1]] [1]).getD 1 none ∧
      0 ∈ retrieveTopIdx (["a".toList, "b".toList] : List (List Char)).length
        [[(1 : Real)], [1]] [1] 2) ∧
    (1 ∈ retrieveTopIdx (["a".toList, "b".toList] : List (List Char)).length
        [[(1 : Real)], [1]] [1] 2 ∧
      [1, 0] <+ retrieveTopIdx (["a".toList, "b".toList] : List (List Char)).length
        [[(1 : Real)], [1]] [1] 2) := by
  have hmem : 0 ∈ retrieveTopIdx (["a".toList, "b".toList] : List (List Char)).length
      [[(1 : Real)], [1]] [1] 2 := by
    show 0 ∈ retrieveTopIdx 2 [[(1 : Real)], [1]] [1] 2
    rw [retrieveTopIdx_tie_two 2 (Or.inr rfl)]
    simp
  refine ⟨⟨by simp, Nat.zero_lt_one, by simp, rfl, hmem⟩, ?_⟩
  exact retrieve_tie_prefers_higher_index ["a".toList, "b".toList]
    [[(1 : Real)], [1]] [1] 2 0 1 (by simp) Nat.zero_lt_one (by simp) rfl hmem

/-! ### C5 : zero-norm embeddings in retrieval -/

/-- C5 (amended theorem).  A zero-norm embedding makes the cosine denominator
zero, so its similarity is IEEE NaN (`none`); NumPy does not raise (it emits a
RuntimeWarning only), but `np.argsort` places NaN LAST in ascending order, so
the `[::-1]` reversal ranks the zero-norm chunk AHEAD of every chunk with a
well-defined similarity, and the `[-top_k:]` cut selects it in preference —
the opposite of the specified "lowest possible score". -/
theorem retrieve_nan_ranked_first
    (chunks : List (List Char)) (E : List (List Real)) (q : List Real)
    (k i j : Nat) (hi : i < E.length) (hj : j < E.length)
    (hnan : (retScores E q).getD i none = none)
    (hok : (retScores E q).getD j none ≠ none)
    (hsel : j ∈ retrieveTopIdx chunks.length E q k) :
    i ∈ retrieveTopIdx chunks.length E q k ∧
      [i, j] <+ retrieveTopIdx chunks.length E q k := by
  have hlen : (retScores E q).length = E.length := retScores_length E q
  have hne : i ≠ j := fun h => hok (h ▸ hnan)
  have hnd : (argsortIdx (retScores E q)).Nodup := argsortIdx_nodup _
  have hmi : i ∈ argsortIdx (retScores E q) := mem_argsortIdx.mpr (hlen ▸ hi)
  have hmj : j ∈ argsortIdx (retScores E q) := mem_argsortIdx.mpr (hlen ▸ hj)
  have hpair : [j, i] <+ argsortIdx (retScores E q) := by
    rcases pair_sublist_of_mem _ i j hnd hmi hmj hne with h | h
    · exfalso
      have hp : scoreLE (retScores E q) i j :=
        List.pairwise_pair.mp ((argsortIdx_sorted _).sublist h)
      rw [scoreLE, hnan] at hp
      obtain ⟨v, hv⟩ := Option.ne_none_iff_exists'.mp hok
      rw [hv] at hp
      exact hp
    · exact h
  rw [retrieveTopIdx] at hsel ⊢
  rw [List.mem_reverse] at hsel
  have hslice := pair_sublist_pyNegSlice hnd hpair hsel
  refine ⟨?_, pair_sublist_reverse hslice⟩
  rw [List.mem_reverse]
  exact hslice.subset (by simp)

theorem retScores_nan_pair :
    retScores [[(0 : Real)], [1]] [1] = [none, some 1] := by
  rw [retScores]
  rw [List.map_cons, List.map_cons, List.map_nil, cosineSimOpt_zero_left,
    cosineSimOpt_one_one]

/-- C5 (counterexample).  Chunk 0 has the zero embedding (zero norm, NaN
similarity), chunk 1 has well-defined similarity 1; with `top_k = 2` the code
ranks the zero-norm chunk FIRST: the returned order is chunk 0 then chunk 1,
with score list `[NaN, 1]` — the zero-norm chunk is ranked ahead of the chunk
with a well-defined similarity, not treated as the lowest score. -/
theorem retrieve_zero_norm_ranked_first :
    retrieveTopIdx 2 [[(0 : Real)], [1]] [1] 2 = [0, 1] ∧
      (retrieve_relevant_chunks ["a".toList, "b".toList]
        [[(0 : Real)], [1]] [1] 2).2 = [none, some 1] := by
  have hidx : retrieveTopIdx 2 [[(0 : Real)], [1]] [1] 2 = [0, 1] := by
    rw [retrieveTopIdx, retScores_nan_pair, argsortIdx_nan_some]
    rfl
  refine ⟨hidx, ?_⟩
  show (retrieveTopIdx 2 [[(0 : Real)], [1]] [1] 2).map _ = _
  rw [hidx, List.map_cons, List.map_cons, List.map_nil, retScores_nan_pair]
  rfl

/-- C5 (witness): the amended theorem applied at the concrete input with a
zero-norm chunk 0 and a well-defined chunk 1, `top_k = 2`, every hypothesis
discharged by evaluation. -/
theorem retrieve_nan_ranked_first_witness :
    ((0 : Nat) < 2 ∧ (1 : Nat) < 2 ∧
      (retScores [[(0 : Real)], [1]] [1]).getD 0 none = none ∧
      (retScores [[(0 : Real)], [1]] [1]).getD 1 none ≠ none ∧
      1 ∈ retrieveTopIdx (["a".toList, "b".toList] : List (List Char)).length
        [[(0 : Real)], [1]] [1] 2) ∧
    (0 ∈ retrieveTopIdx (["a".toList, "b".toList] : List (List Char)).length
        [[(0 : Real)], [1]] [1] 2 ∧
      [0, 1] <+ retrieveTopIdx (["a".toList, "b".toList] : List (List Char)).length
        [[(0 : Real)], [1]] [1] 2) := by
  have h0 : (retScores [[(0 : Real)], [1]] [1]).getD 0 none = none := by
    rw [retScores_nan_pair]
    rfl
  have h1 : (retScores [[(0 : Real)], [1]] [1]).getD 1 none ≠ none := by
    rw [retScores_nan_pair]
    simp
  have hmem : 1 ∈ retrieveTopIdx (["a".toList, "b".toList] : List (List Char)).length
      [[(0 : Real)], [1]] [1] 2 := by
    show 1 ∈ retrieveTopIdx 2 [[(0 : Real)], [1]] [1] 2
    rw [retrieveTopIdx, retScores_nan_pair, argsortIdx_nan_some]
    simp [pyNegSlice]
  refine ⟨⟨by decide, by decide, h0, h1, hmem⟩, ?_⟩
  exact retrieve_nan_ranked_first ["a".toList, "b".toList] [[(0 : Real)], [1]] [1]
    2 0 1 (by decide) (by decide) h0 h1 hmem

/-! ### C1 : retrieval shape and the `top_k = 0` slice bug -/

/-- C1 (code_bug evaluation).  The docstring and spec promise
`min(top_k, len(chunks))` returned chunks (in particular none for `top_k = 0`),
and the code even computes `top_k = min(top_k, len(chunks))` — but the slice
`np.argsort(scores)[-top_k:]` with `top_k = 0` is `[-0:]` = `[0:]`, the WHOLE
array, so with one chunk and `top_k = 0` the function returns that chunk instead
of an empty result. -/
theorem retrieve_topk_zero_returns_all :
    (retrieve_relevant_chunks ["a".toList] [[(1 : Real)]] [1] 0).1 =
        ["a".toList] ∧
      min 0 (["a".toList] : List (List Char)).length = 0 := by
  constructor
  · rfl
  · rfl

/-! ### Lemmas about round-half-even -/

theorem roundHE_eq_of_fract_half {x : Real} (h : Int.fract x = 1 / 2) :
    (roundHE x : Real) = x - 1 / 2 ∨ (roundHE x : Real) = x + 1 / 2 := by
  have hx : x = (⌊x⌋ : Real) + 1 / 2 := by
    have h2 := h
    unfold Int.fract at h2
    linarith
  rw [roundHE, if_pos h]
  rcases Int.even_or_odd ⌊x⌋ with ⟨m, hm⟩ | ⟨m, hm⟩
  · left
    have hx2 : x / 2 + 1 / 2 = (m : Real) + 3 / 4 := by
      rw [hx, hm]
      push_cast
      ring
    have hr : round (x / 2) = m := by
      rw [round_eq, hx2, Int.floor_int_add]
      norm_num
    rw [hr, hx, hm]
    push_cast
    ring
  · right
    have hx2 : x / 2 + 1 / 2 = (m : Real) + 5 / 4 := by
      rw [hx, hm]
      push_cast
      ring
    have hr : round (x / 2) = m + 1 := by
      rw [round_eq, hx2, Int.floor_int_add]
      norm_num
    rw [hr, hx, hm]
    push_cast
    ring

theorem roundHE_le (x : Real) : (roundHE x : Real) ≤ x + 1 / 2 := by
  by_cases h : Int.fract x = 1 / 2
  · rcases roundHE_eq_of_fract_half h with h' | h' <;> rw [h'] <;> linarith
  · rw [roundHE, if_neg h]
    have := abs_sub_round x
    rw [abs_le] at this
    linarith [this.1]

theorem le_roundHE (x : Real) : x - 1 / 2 ≤ (roundHE x : Real) := by
  by_cases h : Int.fract x = 1 / 2
  · rcases roundHE_eq_of_fract_half h with h' | h' <;> rw [h'] <;> linarith
  · rw [roundHE, if_neg h]
    have := abs_sub_round x
    rw [abs_le] at this
    linarith [this.2]

theorem roundHE_mono {x y : Real} (hxy : x ≤ y) : roundHE x ≤ roundHE y := by
  by_contra hlt
  push_neg at hlt
  have h1 : (roundHE y : Real) + 1 ≤ (roundHE x : Real) := by
    have : roundHE y + 1 ≤ roundHE x := hlt
    exact_mod_cast this
  have h2 := roundHE_le x
  have h3 := le_roundHE y
  have hyx : y ≤ x := by linarith
  have hxy' : x = y := le_antisymm hxy hyx
  subst hxy'
  linarith

theorem pyRound1_mono {x y : Real} (h : x ≤ y) : pyRound1 x ≤ pyRound1 y := by
  rw [pyRound1, pyRound1]
  have h10 : roundHE (x * 10) ≤ roundHE (y * 10) := roundHE_mono (by linarith)
  have : (roundHE (x * 10) : Real) ≤ (roundHE (y * 10) : Real) := by exact_mod_cast h10
  linarith

theorem pyRound1_zero : pyRound1 0 = 0 := by
  rw [pyRound1, zero_mul, roundHE, if_neg (by norm_num [Int.fract_zero]),
    round_zero]
  norm_num

theorem pyRound1_bound {x : Real} (h : |x| ≤ 100) :
    -100 ≤ pyRound1 x ∧ pyRound1 x ≤ 100 := by
  rw [abs_le] at h
  have h1 := roundHE_le (x * 10)
  have h2 := le_roundHE (x * 10)
  have hub : roundHE (x * 10) ≤ 1000 := by
    have h3 : ((roundHE (x * 10) : Int) : Real) < 1001 := by linarith [h.2]
    have h4 : (roundHE (x * 10) : Int) < 1001 := by exact_mod_cast h3
    omega
  have hlb : -1000 ≤ roundHE (x * 10) := by
    have h3 : (-1001 : Real) < ((roundHE (x * 10) : Int) : Real) := by
      linarith [h.1]
    have h4 : (-1001 : Int) < roundHE (x * 10) := by exact_mod_cast h3
    omega
  constructor
  · rw [pyRound1]
    have : (-1000 : Real) ≤ (roundHE (x * 10) : Int) := by exact_mod_cast hlb
    linarith
  · rw [pyRound1]
    have : ((roundHE (x * 10) : Int) : Real) ≤ 1000 := by exact_mod_cast hub
    linarith

/-! ### Cauchy–Schwarz for the list dot product -/

theorem dotProd_nil_left (b : List Real) : dotProd [] b = 0 := by
  simp [dotProd]

theorem dotProd_nil_right (a : List Real) : dotProd a [] = 0 := by
  simp [dotProd]

theorem dotProd_cons (x y : Real) (a b : List Real) :
    dotProd (x :: a) (y :: b) = x * y + dotProd a b := by
  simp [dotProd]

theorem dotProd_self_nonneg (a : List Real) : 0 ≤ dotProd a a := by
  induction a with
  | nil => simp [dotProd_nil_left]
  | cons x t ih =>
    rw [dotProd_cons]
    nlinarith [mul_self_nonneg x]

theorem dotProd_sq_le (a : List Real) :
    ∀ b : List Real, dotProd a b ^ 2 ≤ dotProd a a * dotProd b b := by
  induction a with
  | nil =>
    intro b
    simp [dotProd_nil_left]
  | cons x xs ih =>
    intro b
    cases b with
    | nil => simp [dotProd_nil_right]
    | cons y ys =>
      rw [dotProd_cons, dotProd_cons, dotProd_cons]
      have hA := dotProd_self_nonneg xs
      have hB := dotProd_self_nonneg ys
      have hd := ih ys
      rcases eq_or_lt_of_le hB with hB0 | hBpos
      · have hd0 : dotProd xs ys = 0 := by nlinarith [sq_nonneg (dotProd xs ys)]
        rw [hd0, ← hB0]
        nlinarith [mul_nonneg hA (mul_self_nonneg y)]
      · have hfac : (0 : Real) ≤
            dotProd xs xs * dotProd ys ys - dotProd xs ys ^ 2 := by linarith
        have hy : (0 : Real) ≤ y * y + dotProd ys ys := by nlinarith [mul_self_nonneg y]
        nlinarith [sq_nonneg (x * dotProd ys ys - y * dotProd xs ys),
          mul_nonneg hy hfac, hBpos]

theorem norm2_nonneg (a : List Real) : 0 ≤ norm2 a :=
  Real.sqrt_nonneg _

theorem abs_dotProd_le (a b : List Real) : |dotProd a b| ≤ norm2 a * norm2 b := by
  rw [norm2, norm2, ← Real.sqrt_mul (dotProd_self_nonneg a)]
  exact Real.abs_le_sqrt (dotProd_sq_le a b)

theorem abs_cosineSim_le {a b : List Real} (h : norm2 a * norm2 b ≠ 0) :
    |cosineSim a b| ≤ 1 := by
  have hpos : 0 < norm2 a * norm2 b :=
    lt_of_le_of_ne (mul_nonneg (norm2_nonneg a) (norm2_nonneg b)) (Ne.symm h)
  rw [cosineSim, abs_div, abs_of_pos hpos, div_le_one hpos]
  exact abs_dotProd_le a b

/-! ### Lemmas about Python `max` and list sums -/

theorem foldl_max_mem : ∀ (xs : List Real) (acc : Real), xs.foldl max acc ∈ acc :: xs := by
  intro xs
  induction xs with
  | nil =>
    intro acc
    simp
  | cons x t ih =>
    intro acc
    rw [List.foldl_cons]
    rcases List.mem_cons.mp (ih (max acc x)) with h | h
    · rcases max_choice acc x with hm | hm
      · rw [hm] at h ⊢
        rw [h]
        exact List.mem_cons_self _ _
      · rw [hm] at h ⊢
        rw [h]
        exact List.mem_cons_of_mem _ (List.mem_cons_self _ _)
    · exact List.mem_cons_of_mem _ (List.mem_cons_of_mem _ h)

theorem le_foldl_max : ∀ (xs : List Real) (acc : Real),
    acc ≤ xs.foldl max acc ∧ ∀ x ∈ xs, x ≤ xs.foldl max acc := by
  intro xs
  induction xs with
  | nil =>
    intro acc
    exact ⟨le_refl _, by simp⟩
  | cons y t ih =>
    intro acc
    rw [List.foldl_cons]
    obtain ⟨h1, h2⟩ := ih (max acc y)
    refine ⟨le_trans (le_max_left _ _) h1, ?_⟩
    intro x hx
    rcases List.mem_cons.mp hx with rfl | hx'
    · exact le_trans (le_max_right acc x) h1
    · exact h2 x hx'

theorem pyMax_mem {l : List Real} (h : l ≠ []) : pyMax l ∈ l := by
  cases l with
  | nil => exact absurd rfl h
  | cons x t => exact foldl_max_mem t x

theorem le_pyMax {l : List Real} {x : Real} (h : x ∈ l) : x ≤ pyMax l := by
  cases l with
  | nil => simp at h
  | cons y t =>
    rcases List.mem_cons.mp h with rfl | h'
    · exact (le_foldl_max t x).1
    · exact (le_foldl_max t y).2 x h'

theorem abs_sum_le_length {l : List Real} (h : ∀ x ∈ l, |x| ≤ 1) :
    |l.sum| ≤ l.length := by
  induction l with
  | nil => simp
  | cons x t ih =>
    rw [List.sum_cons, List.length_cons]
    calc |x + t.sum| ≤ |x| + |t.sum| := abs_add _ _
    _ ≤ 1 + t.length :=
      add_le_add (h x (List.mem_cons_self _ _))
        (ih fun y hy => h y (List.mem_cons_of_mem _ hy))
    _ = ((t.length + 1 : Nat) : Real) := by push_cast; ring

theorem zipw_abs_le : ∀ l ws : List Real, (∀ x ∈ l, |x| ≤ 1) →
    (∀ w ∈ ws, 0 ≤ w) →
    |((l.zip ws).map fun p => p.1 * p.2).sum| ≤ ws.sum := by
  intro l
  induction l with
  | nil =>
    intro ws _ hw
    simpa using List.sum_nonneg hw
  | cons x t ih =>
    intro ws hl hw
    cases ws with
    | nil => simp
    | cons w vs =>
      rw [List.zip_cons_cons, List.map_cons, List.sum_cons, List.sum_cons]
      have h1 : |x * w| ≤ w := by
        rw [abs_mul, abs_of_nonneg (hw w (List.mem_cons_self _ _))]
        exact mul_le_of_le_one_left (hw w (List.mem_cons_self _ _))
          (hl x (List.mem_cons_self _ _))
      calc |x * w + (List.map (fun p => p.1 * p.2) (t.zip vs)).sum|
          ≤ |x * w| + |(List.map (fun p => p.1 * p.2) (t.zip vs)).sum| :=
            abs_add _ _
        _ ≤ w + vs.sum :=
            add_le_add h1 (ih vs (fun y hy => hl y (List.mem_cons_of_mem _ hy))
              (fun v hv => hw v (List.mem_cons_of_mem _ hv)))

theorem weights_nonneg : ∀ w ∈ ([0.5, 0.3, 0.2] : List Real), 0 ≤ w := by
  intro w hw
  rcases List.mem_cons.mp hw with rfl | hw
  · norm_num
  rcases List.mem_cons.mp hw with rfl | hw
  · norm_num
  rcases List.mem_cons.mp hw with rfl | hw
  · norm_num
  simp at hw

theorem weightsTake_sum_le (n : Nat) :
    ((([0.5, 0.3, 0.2] : List Real)).take n).sum ≤ 1 := by
  match n with
  | 0 => simp
  | 1 => norm_num [List.take_succ_cons]
  | 2 => norm_num [List.take_succ_cons]
  | (m + 3) =>
    rw [List.take_of_length_le (by simp)]
    norm_num

/-! ### C3 : range of the aggregate score -/

theorem pool_abs_le {sims : List Real} (hne : sims ≠ [])
    (hs : ∀ s ∈ sims, |s| ≤ 1) (pooling : String) :
    |(if pooling = "max" then pyMax sims
      else if pooling = "mean" then sims.sum / sims.length
      else if pooling = "weighted" then weightedPool sims
      else pyMax sims)| ≤ 1 := by
  split
  · exact hs _ (pyMax_mem hne)
  split
  · have hlen : (0 : Real) < sims.length := by
      exact_mod_cast List.length_pos.mpr hne
    rw [abs_div, abs_of_pos hlen, div_le_one hlen]
    exact abs_sum_le_length hs
  split
  · rw [weightedPool]
    have htop : ∀ x ∈ (pySortDesc sims).take 3, |x| ≤ 1 := by
      intro x hx
      have h1 : x ∈ pySortDesc sims := (List.take_sublist _ _).subset hx
      rw [pySortDesc, List.mem_insertionSort] at h1
      exact hs x h1
    exact le_trans
      (zipw_abs_le _ _ htop
        (fun w hw => weights_nonneg w ((List.take_sublist _ _).subset hw)))
      (weightsTake_sum_le _)
  · exact hs _ (pyMax_mem hne)

/-- C3 (amended theorem).  For every list of chunk embeddings, every query
embedding and every pooling policy, provided every chunk–query similarity is
well-defined (no zero-norm pair — in the source a zero norm gives IEEE NaN),
`embedding_score_rag` returns a scalar in the range [-100, 100]; the claimed
range [0, 100] is too narrow because cosine similarity can be negative (see the
counterexample `embedding_score_rag_below_zero`).  The empty list yields 0. -/
theorem embedding_score_rag_in_range (E : List (List Real)) (q : List Real)
    (pooling : String) (h : ∀ e ∈ E, norm2 e * norm2 q ≠ 0) :
    -100 ≤ Similarity.embedding_score_rag E q pooling ∧
      Similarity.embedding_score_rag E q pooling ≤ 100 := by
  rw [Similarity.embedding_score_rag]
  split
  · norm_num
  · rename_i hne
    have hnil : E ≠ [] := by
      intro hh
      rw [hh] at hne
      exact hne rfl
    have hsims : ∀ s ∈ E.map (fun e => cosineSim e q), |s| ≤ 1 := by
      intro s hs
      rw [List.mem_map] at hs
      obtain ⟨e, he, rfl⟩ := hs
      exact abs_cosineSim_le (h e he)
    have hmapne : E.map (fun e => cosineSim e q) ≠ [] := by
      simpa using hnil
    have hb := pool_abs_le hmapne hsims pooling
    refine pyRound1_bound ?_
    rw [abs_mul, show |(100 : Real)| = 100 by norm_num]
    nlinarith [hb, abs_nonneg (if pooling = "max" then pyMax (E.map fun e => cosineSim e q)
      else if pooling = "mean" then
        (E.map fun e => cosineSim e q).sum / (E.map fun e => cosineSim e q).length
      else if pooling = "weighted" then weightedPool (E.map fun e => cosineSim e q)
      else pyMax (E.map fun e => cosineSim e q))]

/-- C3 (counterexample).  One chunk whose embedding points opposite to the
query: the cosine similarity is −1 and `embedding_score_rag` returns −100,
outside the claimed range [0, 100]. -/
theorem embedding_score_rag_below_zero :
    Similarity.embedding_score_rag [[(1 : Real)]] [-1] "max" = -100 ∧
      ¬ ((0 : Real) ≤ -100) := by
  refine ⟨?_, by norm_num⟩
  rw [Similarity.embedding_score_rag, if_neg (by simp)]
  dsimp only
  rw [if_pos rfl]
  have hc : cosineSim [(1 : Real)] [-1] = -1 := by
    rw [cosineSim, dotProd_single, norm2, dotProd_single, norm2, dotProd_single]
    norm_num [Real.sqrt_one]
  rw [show (([[(1 : Real)]]).map fun e => cosineSim e [-1]) =
    [cosineSim [(1 : Real)] [-1]] from rfl, hc]
  rw [show pyMax [(-1 : Real)] = -1 from rfl]
  rw [show ((-1 : Real) * 100) = -100 by norm_num, pyRound1]
  rw [show ((-100 : Real) * 10) = ((-1000 : Int) : Real) by norm_num, roundHE]
  rw [if_neg (by rw [Int.fract_intCast]; norm_num), round_intCast]
  norm_num

/-- C3 (witness): the range theorem applied at one chunk embedding `[1]` and
query `[1]`, whose norms are 1. -/
theorem embedding_score_rag_in_range_witness :
    (∀ e ∈ [[(1 : Real)]], norm2 e * norm2 [1] ≠ 0) ∧
      (-100 ≤ Similarity.embedding_score_rag [[(1 : Real)]] [1] "max" ∧
        Similarity.embedding_score_rag [[(1 : Real)]] [1] "max" ≤ 100) := by
  have h : ∀ e ∈ [[(1 : Real)]], norm2 e * norm2 [1] ≠ 0 := by
    intro e he
    rw [List.mem_singleton] at he
    subst he
    rw [norm2_single zero_le_one]
    norm_num
  exact ⟨h, embedding_score_rag_in_range [[1]] [1] "max" h⟩

/-! ### C7 : max pooling dominates mean pooling -/

theorem mean_le_max {sims : List Real} (hne : sims ≠ []) :
    sims.sum / sims.length ≤ pyMax sims := by
  have hpos : (0 : Real) < sims.length := by
    exact_mod_cast List.length_pos.mpr hne
  rw [div_le_iff hpos]
  have h := List.sum_le_card_nsmul sims (pyMax sims) (fun x hx => le_pyMax hx)
  rwa [nsmul_eq_mul, mul_comm] at h

/-- C7 (theorem).  For every list of chunk embeddings and query embedding whose
similarities are all well-defined (no zero-norm pair — on a zero norm the source
produces IEEE NaN and the comparison is meaningless), the aggregate under policy
`max` is at least the aggregate under policy `mean`: the maximum of the
similarity list dominates its arithmetic mean, scaling by 100 and the monotone
rounding preserve the order, and the empty list gives 0 on both sides. -/
theorem embedding_score_rag_max_ge_mean (E : List (List Real)) (q : List Real)
    (h : ∀ e ∈ E, norm2 e * norm2 q ≠ 0) :
    Similarity.embedding_score_rag E q "mean" ≤
      Similarity.embedding_score_rag E q "max" := by
  rw [Similarity.embedding_score_rag, Similarity.embedding_score_rag]
  split
  · exact le_refl _
  · rename_i hne
    have hnil : E ≠ [] := by
      intro hh
      rw [hh] at hne
      exact hne rfl
    have hmapne : E.map (fun e => cosineSim e q) ≠ [] := by simpa using hnil
    simp only [reduceIte]
    rw [if_neg (show ¬ ("mean" = "max") by decide)]
    apply pyRound1_mono
    nlinarith [mean_le_max hmapne]

/-- C7 (witness): the dominance theorem applied at one chunk embedding `[1]`
and query `[1]`. -/
theorem embedding_score_rag_max_ge_mean_witness :
    (∀ e ∈ [[(1 : Real)]], norm2 e * norm2 [1] ≠ 0) ∧
      Similarity.embedding_score_rag [[(1 : Real)]] [1] "mean" ≤
        Similarity.embedding_score_rag [[(1 : Real)]] [1] "max" := by
  have h : ∀ e ∈ [[(1 : Real)]], norm2 e * norm2 [1] ≠ 0 := by
    intro e he
    rw [List.mem_singleton] at he
    subst he
    rw [norm2_single zero_le_one]
    norm_num
  exact ⟨h, embedding_score_rag_max_ge_mean [[1]] [1] h⟩

/-! ### C6 : the weighted pooling formula -/

theorem zip_take_len (as : List Real) :
    ∀ bs : List Real, as.zip (bs.take as.length) = as.zip bs := by
  induction as with
  | nil =>
    intro bs
    simp
  | cons x t ih =>
    intro bs
    cases bs with
    | nil => simp
    | cons y s =>
      rw [List.length_cons, List.take_succ_cons, List.zip_cons_cons,
        List.zip_cons_cons, ih]

theorem transformer_eq_similarity (E : List (List Real)) (q : List Real)
    (p : String) :
    Transformer.embedding_score_rag E q p = Similarity.embedding_score_rag E q p :=
  rfl

/-- C6 (theorem).  For every non-empty embedding list, policy `weighted`
returns exactly the formula of the spec: round to one decimal of 100 times the sum
over the top `min(3, n)` similarities, sorted descending, of similarity times
weight, with weights `[0.5, 0.3, 0.2]` taken as a prefix aligned with rank and
not renormalized (the `zip` with the weight prefix is the same as the `zip`
with the full weight list).  Both the `similarity.py` and the
`transformer_embedder.py` implementations satisfy it. -/
theorem embedding_score_rag_weighted_matches_spec (E : List (List Real))
    (q : List Real) (h : E ≠ []) :
    Similarity.embedding_score_rag E q "weighted" = specWeightedScore E q ∧
      Transformer.embedding_score_rag E q "weighted" = specWeightedScore E q := by
  have main : Similarity.embedding_score_rag E q "weighted" =
      specWeightedScore E q := by
    rw [Similarity.embedding_score_rag, if_neg (by simpa using h),
      specWeightedScore]
    rw [if_neg (show ¬ ("weighted" = "max") by decide),
      if_neg (show ¬ ("weighted" = "mean") by decide),
      if_pos (rfl : "weighted" = "weighted"), weightedPool]
    rw [zip_take_len, mul_comm]
  exact ⟨main, (transformer_eq_similarity E q "weighted").trans main⟩

/-- C6 (witness): the weighted-formula theorem applied at the non-empty
embedding list `[[1]]`. -/
theorem embedding_score_rag_weighted_matches_spec_witness :
    ([[(1 : Real)]] ≠ ([] : List (List Real))) ∧
      (Similarity.embedding_score_rag [[(1 : Real)]] [1] "weighted" =
          specWeightedScore [[(1 : Real)]] [1] ∧
        Transformer.embedding_score_rag [[(1 : Real)]] [1] "weighted" =
          specWeightedScore [[(1 : Real)]] [1]) := by
  have h : [[(1 : Real)]] ≠ ([] : List (List Real)) := by simp
  exact ⟨h, embedding_score_rag_weighted_matches_spec [[1]] [1] h⟩

/-! ### C10 : the three max-pooling scorers agree -/

/-- C10 (theorem).  `RAGEmbedder.get_similarity_score`,
`similarity.embedding_score_rag` with policy `max` and
`transformer_embedder.embedding_score_rag` with policy `max` compute the same score
on every input, and all three return 0.0 on the empty embedding list. -/
theorem max_pooling_scorers_agree (E : List (List Real)) (q : List Real) :
    RAGEmbedder.get_similarity_score E q =
        Similarity.embedding_score_rag E q "max" ∧
      Similarity.embedding_score_rag E q "max" =
        Transformer.embedding_score_rag E q "max" ∧
      RAGEmbedder.get_similarity_score [] q = 0 ∧
      Similarity.embedding_score_rag [] q "max" = 0 ∧
      Transformer.embedding_score_rag [] q "max" = 0 := by
  have hempty : RAGEmbedder.get_similarity_score [] q = 0 := by
    rw [RAGEmbedder.get_similarity_score]
    simp only [List.map_nil, List.isEmpty_nil, if_pos, zero_mul, pyRound1_zero]
  have hsim0 : Similarity.embedding_score_rag [] q "max" = 0 := by
    rw [Similarity.embedding_score_rag]
    simp
  have hmain : RAGEmbedder.get_similarity_score E q =
      Similarity.embedding_score_rag E q "max" := by
    cases E with
    | nil => rw [hempty, hsim0]
    | cons e es =>
      rw [RAGEmbedder.get_similarity_score, Similarity.embedding_score_rag]
      simp
  exact ⟨hmain, rfl, hempty, hsim0, hsim0⟩

/-! ### C8 : cache reads do not validate entries -/

/-- C8 (amended theorem).  No cache read validates the stored data, on any
path: (a) an in-memory `RAGCache` entry with mismatched chunk/embedding lengths
is returned as-is by `get_rag_data`; (b) on a memory miss with both disk files
present, `get_rag_data` rebuilds and returns the entry from whatever the files
hold, again without comparing the lengths (its `num_chunks` is `len(chunks)`
regardless of the embeddings); and (c) `RAGEmbedder.get_cached_cv` returns the
stored dict unvalidated.  In no case is a malformed entry treated as a miss,
and nothing is recomputed. -/
theorem cache_read_no_validation (st : RAGCacheState) (est : RAGEmbedderState)
    (k : String) (e : RagEntry) (cs : List (List Char))
    (es : List (List Real)) :
    (st.memory.lookup k = some e → e.chunks.length ≠ e.embeddings.length →
      get_rag_data st k = some e) ∧
    (st.memory.lookup k = none → st.diskChunks.lookup k = some cs →
      st.diskEmb.lookup k = some es → cs.length ≠ es.length →
      get_rag_data st k = some ⟨cs, es, cs.length⟩) ∧
    (est.cache.lookup k = some e → e.chunks.length ≠ e.embeddings.length →
      get_cached_cv est k = some e) := by
  refine ⟨?_, ?_, ?_⟩
  · intro hmem _
    rw [get_rag_data, hmem]
  · intro hmem hdc hde _
    rw [get_rag_data, hmem, hdc, hde]
  · intro hc _
    rw [get_cached_cv, hc]

/-- C8 (counterexample).  A cache whose in-memory entry under key `"k"` has one
chunk but zero embeddings: `get_rag_data` returns the malformed entry instead
of treating the read as a miss. -/
theorem get_rag_data_malformed_not_miss :
    get_rag_data ⟨[("k", ⟨[['a']], [], 1⟩)], [], []⟩ "k" =
        some ⟨[['a']], [], 1⟩ ∧
      (⟨[['a']], [], 1⟩ : RagEntry).chunks.length ≠
        (⟨[['a']], [], 1⟩ : RagEntry).embeddings.length := by
  constructor
  · rfl
  · decide

/-- C8 (witness): the no-validation theorem applied at concrete malformed
states on all three read paths — an in-memory entry with one chunk and no
embeddings, a disk-only pair of files with one chunk and no embeddings, and a
`RAGEmbedder` cache entry of the same malformed shape. -/
theorem cache_read_no_validation_witness :
    (get_rag_data ⟨[("k", ⟨[['a']], [], 1⟩)], [], []⟩ "k" =
        some ⟨[['a']], [], 1⟩) ∧
      (get_rag_data ⟨[], [("k", [['a']])], [("k", [])]⟩ "k" =
        some ⟨[['a']], [], 1⟩) ∧
      (get_cached_cv ⟨[("k", ⟨[['a']], [], 1⟩)]⟩ "k" =
        some ⟨[['a']], [], 1⟩) := by
  refine ⟨?_, ?_, ?_⟩
  · exact (cache_read_no_validation ⟨[("k", ⟨[['a']], [], 1⟩)], [], []⟩ ⟨[]⟩
      "k" ⟨[['a']], [], 1⟩ [] []).1 rfl (by decide)
  · exact (cache_read_no_validation ⟨[], [("k", [['a']])], [("k", [])]⟩ ⟨[]⟩
      "k" ⟨[], [], 0⟩ [['a']] []).2.1 rfl rfl rfl (by decide)
  · exact (cache_read_no_validation ⟨[], [], []⟩ ⟨[("k", ⟨[['a']], [], 1⟩)]⟩
      "k" ⟨[['a']], [], 1⟩ [] []).2.2 rfl (by decide)

/-! ### C9 : pipeline stage ordering -/

/-- C9 (counterexample).  On a cache miss, the trace of `run_pipeline_rag` has
the candidate-chunk embedding COMPLETE before the query embedding is issued:
the two embedding operations run sequentially, not concurrently (a concurrent
issue would require the query embedding to start before the chunk embedding
ends). -/
theorem rag_pipeline_sequential :
    (runPipelineRagTrace false).indexOf PEvent.embedChunksEnd <
      (runPipelineRagTrace false).indexOf PEvent.embedQueryStart := by
  decide

/-- C9 (amended theorem).  In every invocation of `run_pipeline_rag`: the
retrieve stage begins only after the query embedding (and, on a miss, the chunk
embedding) has completed — that half of the claim holds — but the two embedding
operations are issued strictly sequentially: on a cache miss the chunk
embedding completes before the query embedding is issued.  The concurrency the
spec requires is absent from the code (the only `ThreadPoolExecutor` in
`run_pipeline_rag` wraps the two LLM parsing calls, after retrieval). -/
theorem rag_pipeline_stage_order (hit : Bool) :
    ((runPipelineRagTrace hit).indexOf PEvent.embedQueryEnd <
        (runPipelineRagTrace hit).indexOf PEvent.retrieveChunks) ∧
      ((runPipelineRagTrace false).indexOf PEvent.embedChunksEnd <
        (runPipelineRagTrace false).indexOf PEvent.retrieveChunks) ∧
      ((runPipelineRagTrace false).indexOf PEvent.embedChunksEnd <
        (runPipelineRagTrace false).indexOf PEvent.embedQueryStart) := by
  cases hit <;> decide

end JobMatcher
